import Mathlib

/-!
Verification of the resilient JSON extractor of `src/backend/utils/helper.ts`
(`cleanAndParseJSON` and its repair passes).  Text is modelled as `List Char`
(one entry per code point; all inputs of interest are BMP text, where JavaScript
string indices and code-point indices agree).
-/

set_option maxRecDepth 10000

/-- JSON values as produced by standard JSON parsing (the model of
`JSON.parse`).  Number values keep their raw lexeme: none of the texts we
compare ever writes one mathematical number with two different lexemes. -/
inductive Json where
  | null : Json
  | bool (b : Bool) : Json
  | num (lexeme : List Char) : Json
  | str (value : List Char) : Json
  | arr (elements : List Json) : Json
  | obj (fields : List (List Char × Json)) : Json

/-- Whitespace accepted by standard JSON parsing (space, tab, LF, CR). -/
def isJsonWsChar (c : Char) : Bool :=
  c = ' ' || c = '\t' || c = '\n' || c = '\r'

def skipJsonWs (s : List Char) : List Char :=
  s.dropWhile isJsonWsChar

/-- Duplicate object keys: the later value overwrites the earlier one in
place, matching standard JSON parsing of repeated member names. -/
def setField (fields : List (List Char × Json)) (k : List Char) (v : Json) :
    List (List Char × Json) :=
  if fields.any (fun p => p.1 = k) then
    fields.map (fun p => if p.1 = k then (k, v) else p)
  else
    fields ++ [(k, v)]

/-- Outcome of scanning one lexical item (string body, number lexeme). -/
inductive StrOutcome where
  | ok (content : List Char) (rest : List Char) : StrOutcome
  | fail (message : List Char) : StrOutcome
deriving DecidableEq, Repr

/-- Outcome of parsing one JSON value out of a text. -/
inductive PartialOutcome where
  | ok (value : Json) (rest : List Char) : PartialOutcome
  | fail (message : List Char) : PartialOutcome

/-- Outcome of parsing a whole text as JSON. -/
inductive ParseOutcome where
  | ok (value : Json) : ParseOutcome
  | fail (message : List Char) : ParseOutcome

def unexpectedEndMsg : List Char := "Unexpected end of JSON input".toList

def unexpectedTokenMsg : List Char := "Unexpected token in JSON".toList

def badEscapeMsg : List Char := "Bad escaped character in JSON".toList

def badControlCharMsg : List Char := "Bad control character in JSON string".toList

def expectedColonMsg : List Char := "Expected colon after property name in JSON".toList

def expectedDelimMsg : List Char := "Expected comma or closer in JSON".toList

def trailingContentMsg : List Char := "Unexpected non-whitespace character after JSON".toList

def tooDeepMsg : List Char := "Nesting of JSON input is too deep".toList

def hexDigitVal (c : Char) : Option Nat :=
  if '0' ≤ c ∧ c ≤ '9' then some (c.toNat - '0'.toNat)
  else if 'a' ≤ c ∧ c ≤ 'f' then some (c.toNat - 'a'.toNat + 10)
  else if 'A' ≤ c ∧ c ≤ 'F' then some (c.toNat - 'A'.toNat + 10)
  else none

/-- Body of a JSON string literal, after its opening quote: ends at the first
unescaped quote; rejects raw control characters below 0x20; decodes the
standard escapes.  (A `\u` escape in the surrogate range, which Lean's `Char`
cannot carry, is mapped to the replacement character U+FFFD; no input in this
development uses `\u` escapes at all.) -/
def parseStringBody : List Char → StrOutcome
  | [] => .fail unexpectedEndMsg
  | c :: rest =>
    if c = '"' then .ok [] rest
    else if c = '\\' then
      match rest with
      | [] => .fail unexpectedEndMsg
      | e :: r2 =>
        if e = '"' || e = '\\' || e = '/' then
          match parseStringBody r2 with
          | .ok cs r => .ok (e :: cs) r
          | .fail m => .fail m
        else if e = 'b' then
          match parseStringBody r2 with
          | .ok cs r => .ok ('\x08' :: cs) r
          | .fail m => .fail m
        else if e = 'f' then
          match parseStringBody r2 with
          | .ok cs r => .ok ('\x0c' :: cs) r
          | .fail m => .fail m
        else if e = 'n' then
          match parseStringBody r2 with
          | .ok cs r => .ok ('\n' :: cs) r
          | .fail m => .fail m
        else if e = 'r' then
          match parseStringBody r2 with
          | .ok cs r => .ok ('\r' :: cs) r
          | .fail m => .fail m
        else if e = 't' then
          match parseStringBody r2 with
          | .ok cs r => .ok ('\t' :: cs) r
          | .fail m => .fail m
        else if e = 'u' then
          match r2 with
          | h1 :: h2 :: h3 :: h4 :: r3 =>
            match hexDigitVal h1, hexDigitVal h2, hexDigitVal h3, hexDigitVal h4 with
            | some a, some b, some c3, some d =>
              match parseStringBody r3 with
              | .ok cs r =>
                let code := ((a * 16 + b) * 16 + c3) * 16 + d
                .ok ((if 0xd800 ≤ code ∧ code < 0xe000 then '�' else Char.ofNat code) :: cs) r
              | .fail m => .fail m
            | _, _, _, _ => .fail badEscapeMsg
          | _ => .fail unexpectedEndMsg
        else .fail badEscapeMsg
    else if c.toNat < 32 then .fail badControlCharMsg
    else
      match parseStringBody rest with
      | .ok cs r => .ok (c :: cs) r
      | .fail m => .fail m

/-- Exponent part of a JSON number lexeme (or nothing). -/
def numExpPart (lex : List Char) (s : List Char) : StrOutcome :=
  match s with
  | [] => .ok lex []
  | e :: r =>
    if e = 'e' || e = 'E' then
      let (sg, r2) : List Char × List Char :=
        match r with
        | '+' :: rr => (['+'], rr)
        | '-' :: rr => (['-'], rr)
        | _ => ([], r)
      let ds := r2.takeWhile Char.isDigit
      if ds = [] then .fail unexpectedTokenMsg
      else .ok (lex ++ e :: (sg ++ ds)) (r2.drop ds.length)
    else .ok lex s

/-- Fraction part of a JSON number lexeme (or nothing), then exponent. -/
def numFracPart (lex : List Char) (s : List Char) : StrOutcome :=
  match s with
  | '.' :: r =>
    let ds := r.takeWhile Char.isDigit
    if ds = [] then .fail unexpectedTokenMsg
    else numExpPart (lex ++ '.' :: ds) (r.drop ds.length)
  | _ => numExpPart lex s

/-- A JSON number lexeme: `-?(0|[1-9][0-9]*)(\.[0-9]+)?([eE][+-]?[0-9]+)?`.
`s` starts at the sign or first digit. -/
def parseNumberLex (s : List Char) : StrOutcome :=
  let (signPart, s1) : List Char × List Char :=
    match s with
    | '-' :: r => (['-'], r)
    | _ => ([], s)
  match s1 with
  | [] => .fail unexpectedEndMsg
  | c :: _ =>
    if c = '0' then numFracPart (signPart ++ ['0']) (s1.drop 1)
    else if c.isDigit then
      let ds := s1.takeWhile Char.isDigit
      numFracPart (signPart ++ ds) (s1.drop ds.length)
    else .fail unexpectedTokenMsg

mutual

/-- One JSON value (standard grammar), fuel-indexed so the kernel can
evaluate it.  Returns the value and the unconsumed rest. -/
def parseValue : Nat → List Char → PartialOutcome
  | 0, _ => .fail tooDeepMsg
  | fuel + 1, s =>
    match skipJsonWs s with
    | [] => .fail unexpectedEndMsg
    | c :: rest =>
      if c = '\x7b' then parseMembers fuel rest [] true
      else if c = '[' then parseElems fuel rest [] true
      else if c = '"' then
        match parseStringBody rest with
        | .ok cs r => .ok (.str cs) r
        | .fail m => .fail m
      else if c = 't' then
        match rest with
        | 'r' :: 'u' :: 'e' :: r => .ok (.bool true) r
        | _ => .fail unexpectedTokenMsg
      else if c = 'f' then
        match rest with
        | 'a' :: 'l' :: 's' :: 'e' :: r => .ok (.bool false) r
        | _ => .fail unexpectedTokenMsg
      else if c = 'n' then
        match rest with
        | 'u' :: 'l' :: 'l' :: r => .ok .null r
        | _ => .fail unexpectedTokenMsg
      else if c = '-' || c.isDigit then
        match parseNumberLex (c :: rest) with
        | .ok lex r => .ok (.num lex) r
        | .fail m => .fail m
      else .fail unexpectedTokenMsg

/-- Elements of a JSON array, after the opening `[` (and after any previous
element's comma when `first = false`). -/
def parseElems : Nat → List Char → List Json → Bool → PartialOutcome
  | 0, _, _, _ => .fail tooDeepMsg
  | fuel + 1, s, acc, first =>
    match skipJsonWs s with
    | [] => .fail unexpectedEndMsg
    | c :: rest =>
      if first && c = ']' then .ok (.arr acc) rest
      else
        match parseValue fuel (c :: rest) with
        | .fail m => .fail m
        | .ok v rest2 =>
          match skipJsonWs rest2 with
          | [] => .fail unexpectedEndMsg
          | d :: rest3 =>
            if d = ',' then parseElems fuel rest3 (acc ++ [v]) false
            else if d = ']' then .ok (.arr (acc ++ [v])) rest3
            else .fail expectedDelimMsg

/-- Members of a JSON object, after the opening brace (and after any previous
member's comma when `first = false`). -/
def parseMembers : Nat → List Char → List (List Char × Json) → Bool → PartialOutcome
  | 0, _, _, _ => .fail tooDeepMsg
  | fuel + 1, s, acc, first =>
    match skipJsonWs s with
    | [] => .fail unexpectedEndMsg
    | c :: rest =>
      if first && c = '\x7d' then .ok (.obj acc) rest
      else if c = '"' then
        match parseStringBody rest with
        | .fail m => .fail m
        | .ok k rest2 =>
          match skipJsonWs rest2 with
          | ':' :: rest3 =>
            match parseValue fuel rest3 with
            | .fail m => .fail m
            | .ok v rest4 =>
              match skipJsonWs rest4 with
              | ',' :: rest5 => parseMembers fuel rest5 (setField acc k v) false
              | '\x7d' :: rest5 => .ok (.obj (setField acc k v)) rest5
              | _ => .fail expectedDelimMsg
          | _ => .fail expectedColonMsg
      else .fail unexpectedTokenMsg

end

/-- Fuel that is always sufficient: the scan spends at most two fuel units
per consumed character. -/
def jsonParseFuel (s : List Char) : Nat := 2 * s.length + 2

/-- The model of standard `JSON.parse`: one JSON value, with only whitespace
allowed around it. -/
def jsonParse (s : List Char) : ParseOutcome :=
  match parseValue (jsonParseFuel s) s with
  | .ok v rest => if skipJsonWs rest = [] then .ok v else .fail trailingContentMsg
  | .fail m => .fail m

/-! ### Boundary extraction (step 1 of `cleanAndParseJSON`) -/

def firstIdx (c : Char) : List Char → Option Nat
  | [] => none
  | d :: rest => if d = c then some 0 else (firstIdx c rest).map (· + 1)

def lastIdx (c : Char) (s : List Char) : Option Nat :=
  (firstIdx c s.reverse).map (fun i => s.length - 1 - i)

/-- JavaScript `String.prototype.indexOf` for a single character. -/
def jsIndexOf (c : Char) (s : List Char) : Int :=
  match firstIdx c s with
  | some i => (i : Int)
  | none => -1

/-- JavaScript `String.prototype.lastIndexOf` for a single character. -/
def jsLastIndexOf (c : Char) (s : List Char) : Int :=
  match lastIdx c s with
  | some i => (i : Int)
  | none => -1

/-- JavaScript `String.prototype.substring` (only the clamping needed here:
both call sites keep `a ≤ b` and `0 ≤ a`). -/
def jsSubstring (s : List Char) (a b : Int) : List Char :=
  (s.take b.toNat).drop a.toNat

/-- The `start` index of step 1 of `cleanAndParseJSON` (helper.ts lines
51-56): minimum of the two `indexOf` results when both hits exist, their
maximum otherwise (`-1` when neither exists). -/
def startBoundaryInt (s : List Char) : Int :=
  let arrayStart := jsIndexOf '[' s
  let objectStart := jsIndexOf '\x7b' s
  if arrayStart ≠ -1 ∧ objectStart ≠ -1 then min arrayStart objectStart
  else max arrayStart objectStart

/-- The `end` index of step 1 of `cleanAndParseJSON` (helper.ts lines 58-60):
maximum of the two `lastIndexOf` results. -/
def endBoundaryInt (s : List Char) : Int :=
  max (jsLastIndexOf ']' s) (jsLastIndexOf '\x7d' s)

/-- Step 1 of `cleanAndParseJSON` (helper.ts lines 50-64): truncate to the
substring between the first `[`/`{` and the last `]`/`}`. -/
def boundaryTrim (s : List Char) : List Char :=
  let start := startBoundaryInt s
  let en := endBoundaryInt s
  if start ≠ -1 ∧ en ≠ -1 ∧ en > start then jsSubstring s start (en + 1) else s

/-- Start boundary in the words of the specification: the minimum index among
whichever of the first `[` / first `{` are present. -/
def specStartBoundary (s : List Char) : Option Nat :=
  match firstIdx '[' s, firstIdx '\x7b' s with
  | some i, some j => some (min i j)
  | some i, none => some i
  | none, some j => some j
  | none, none => none

/-- End boundary in the words of the specification: the maximum index among
whichever of the last `]` / last `}` are present. -/
def specEndBoundary (s : List Char) : Option Nat :=
  match lastIdx ']' s, lastIdx '\x7d' s with
  | some i, some j => some (max i j)
  | some i, none => some i
  | none, some j => some j
  | none, none => none

/-- Boundary extraction in the words of the specification: the inclusive
substring from the start boundary to the end boundary, provided the end is
after the start; otherwise a no-op. -/
def boundarySpecTrim (s : List Char) : List Char :=
  match specStartBoundary s, specEndBoundary s with
  | some a, some b => if a < b then (s.take (b + 1)).drop a else s
  | _, _ => s

/-! ### Repair pass: trailing commas (step 3, `cleaned.replace(/,(\s*[}\]])/g, "$1")`) -/

/-- The character class `\s` of JavaScript regular expressions (also the set
removed by `String.prototype.trim`). -/
def isJsWsRegex (c : Char) : Bool :=
  c = ' ' || c = '\t' || c = '\n' || c = '\r' || c = '\x0b' || c = '\x0c' ||
  c.toNat = 0xA0 || c.toNat = 0x1680 || (0x2000 ≤ c.toNat && c.toNat ≤ 0x200A) ||
  c.toNat = 0x2028 || c.toNat = 0x2029 || c.toNat = 0x202F || c.toNat = 0x205F ||
  c.toNat = 0x3000 || c.toNat = 0xFEFF

/-- Match `\s*[}\]]` at the head of the text: the (maximal) whitespace run and
the closer, plus what follows. -/
def splitWsCloser (rest : List Char) : Option (List Char × Char × List Char) :=
  let ws := rest.takeWhile isJsWsRegex
  match rest.drop ws.length with
  | c :: r => if c = ']' || c = '\x7d' then some (ws, c, r) else none
  | [] => none

def fixTrailingCommasGo : Nat → List Char → List Char
  | 0, s => s
  | _, [] => []
  | fuel + 1, c :: rest =>
    if c = ',' then
      match splitWsCloser rest with
      | some (ws, cl, r) => ws ++ cl :: fixTrailingCommasGo fuel r
      | none => c :: fixTrailingCommasGo fuel rest
    else c :: fixTrailingCommasGo fuel rest

/-- The global replacement `cleaned.replace(/,(\s*[}\]])/g, "$1")`: each comma
followed (through whitespace) by a closing `]` or `}` is removed, the
whitespace and closer are kept, and scanning resumes after the match. -/
def fixTrailingCommas (s : List Char) : List Char :=
  fixTrailingCommasGo (s.length + 1) s

/-! ### Repair pass: control characters in strings (helper.ts lines 115-165) -/

/-- Scan state of the two string-aware passes: inside a string literal, and
immediately after an unconsumed backslash. -/
structure ScanState where
  inString : Bool
  escaped : Bool
deriving DecidableEq, Repr

/-- One character of `fixControlCharactersInStrings`: the emitted characters
and the next state, with the branches in the source's order. -/
def ccStep (st : ScanState) (c : Char) : List Char × ScanState :=
  if st.escaped then ([c], ⟨st.inString, false⟩)
  else if c = '\\' then ([c], ⟨st.inString, true⟩)
  else if c = '"' then ([c], ⟨!st.inString, st.escaped⟩)
  else if st.inString then
    (if c.toNat = 10 then ['\\', 'n']
     else if c.toNat = 13 then ['\\', 'r']
     else if c.toNat = 9 then ['\\', 't']
     else if c.toNat < 32 then []
     else [c], st)
  else ([c], st)

def ccGo (st : ScanState) : List Char → List Char
  | [] => []
  | c :: rest => (ccStep st c).1 ++ ccGo (ccStep st c).2 rest

def fixControlCharactersInStrings (json : List Char) : List Char :=
  ccGo ⟨false, false⟩ json

/-! ### Repair pass: unescaped quotes in values (helper.ts lines 171-237) -/

/-- `getNextNonSpaceChar`: the next character that is not a space, newline,
carriage return or tab (`none` models the source's empty-string return). -/
def getNextNonSpaceChar : List Char → Option Char
  | [] => none
  | c :: rest =>
    if c = ' ' || c = '\n' || c = '\r' || c = '\t' then getNextNonSpaceChar rest
    else some c

def fqGo (inStr esc : Bool) : List Char → List Char
  | [] => []
  | c :: rest =>
    if esc then c :: fqGo inStr false rest
    else if c = '\\' then c :: fqGo inStr true rest
    else if c = '"' then
      if inStr then
        let nx := getNextNonSpaceChar rest
        if nx = some ',' || nx = some '\x7d' || nx = some ']' || nx = none ||
            nx = some ':' then
          c :: fqGo false false rest
        else '\\' :: c :: fqGo true false rest
      else c :: fqGo true false rest
    else c :: fqGo inStr esc rest

def fixUnescapedQuotesInValues (json : List Char) : List Char :=
  fqGo false false json

/-! ### Normalization of fenced code blocks (helper.ts lines 7-41) -/

def isBacktick (c : Char) : Bool := c.toNat = 96

/-- The character class `\w`. -/
def isWordChar (c : Char) : Bool :=
  ('a' ≤ c && c ≤ 'z') || ('A' ≤ c && c ≤ 'Z') || ('0' ≤ c && c ≤ '9') || c = '_'

/-- Lazy search (`[\s\S]*?```) for the first closing triple backtick: the
content before it and what follows it. -/
def findFenceClose : List Char → Option (List Char × List Char)
  | [] => none
  | c :: rest =>
    if isBacktick c then
      match rest with
      | c2 :: c3 :: r =>
        if isBacktick c2 && isBacktick c3 then some ([], r)
        else (findFenceClose rest).map (fun p => (c :: p.1, p.2))
      | _ => (findFenceClose rest).map (fun p => (c :: p.1, p.2))
    else (findFenceClose rest).map (fun p => (c :: p.1, p.2))

/-- Match the fence pattern ``` `\w*\n[\s\S]*?``` ``` at the head of the text:
the whole match and what follows it. -/
def tryFenceAt (s : List Char) : Option (List Char × List Char) :=
  match s with
  | c1 :: c2 :: c3 :: rest =>
    if isBacktick c1 && isBacktick c2 && isBacktick c3 then
      let w := rest.takeWhile isWordChar
      match rest.drop w.length with
      | nl :: rest2 =>
        if nl = '\n' then
          match findFenceClose rest2 with
          | some (content, r) =>
            some (c1 :: c2 :: c3 :: (w ++ nl :: (content ++ [c1, c2, c3])), r)
          | none => none
        else none
      | [] => none
    else none
  | _ => none

def wrapFencesGo : Nat → List Char → List Char
  | 0, s => s
  | _, [] => []
  | fuel + 1, c :: rest =>
    match tryFenceAt (c :: rest) with
    | some (m, r) => '\n' :: '\n' :: (m ++ '\n' :: '\n' :: wrapFencesGo fuel r)
    | none => c :: wrapFencesGo fuel rest

/-- The global replacement that puts `"\n\n" + match + "\n\n"` around every
fenced code block. -/
def wrapFences (s : List Char) : List Char :=
  wrapFencesGo (s.length + 1) s

def collapseNewlinesGo : Nat → List Char → List Char
  | 0, s => s
  | _, [] => []
  | fuel + 1, '\n' :: '\n' :: '\n' :: rest =>
    collapseNewlinesGo fuel ('\n' :: '\n' :: rest)
  | fuel + 1, c :: rest => c :: collapseNewlinesGo fuel rest

/-- The global replacement `normalized.replace(/\n{3,}/g, "\n\n")`: every run
of three or more newlines becomes exactly two. -/
def collapseNewlines (s : List Char) : List Char :=
  collapseNewlinesGo (s.length + 1) s

/-- JavaScript `String.prototype.trim`. -/
def jsTrim (s : List Char) : List Char :=
  ((s.dropWhile isJsWsRegex).reverse.dropWhile isJsWsRegex).reverse

/-- `normalizeCodeBlocks` (helper.ts lines 7-21): wrap each fenced code block
in blank lines, collapse newline runs of three or more, then trim. -/
def normalizeCodeBlocks (text : List Char) : List Char :=
  jsTrim (collapseNewlines (wrapFences text))

mutual

/-- `normalizeCodeBlocksInObject` (helper.ts lines 26-41): normalize every
string value recursively; arrays map over elements, objects keep their keys
and normalize the values; non-string scalars are returned unchanged. -/
def normalizeCodeBlocksInObject : Json → Json
  | .str s => .str (normalizeCodeBlocks s)
  | .arr xs => .arr (normalizeJsonList xs)
  | .obj fs => .obj (normalizeJsonFields fs)
  | j => j

def normalizeJsonList : List Json → List Json
  | [] => []
  | x :: xs => normalizeCodeBlocksInObject x :: normalizeJsonList xs

def normalizeJsonFields : List (List Char × Json) → List (List Char × Json)
  | [] => []
  | (k, v) :: fs => (k, normalizeCodeBlocksInObject v) :: normalizeJsonFields fs

end

/-! ### The extraction pipeline `cleanAndParseJSON` (helper.ts lines 47-110) -/

inductive LogLevel where
  | debug : LogLevel
  | error : LogLevel
deriving DecidableEq, Repr

/-- One message sent to the module-level logger. -/
structure LogEntry where
  level : LogLevel
  message : List Char
deriving DecidableEq, Repr

def initialFailLog : LogEntry :=
  ⟨.debug, "Initial JSON parse failed, attempting sanitization...".toList⟩

def secondFailLog : LogEntry :=
  ⟨.debug, "Second JSON parse failed, attempting quote fix...".toList⟩

def previewHeader : List Char :=
  "JSON parsing failed after all sanitization attempts. Content preview: ".toList

/-- The `logger.error` line: header, the first 500 characters of the text as
it stood after all repair passes, and a trailing ellipsis. -/
def finalFailLog (cleaned : List Char) : LogEntry :=
  ⟨.error, previewHeader ++ cleaned.take 500 ++ "...".toList⟩

def failedToParseHeader : List Char :=
  "Failed to parse AI response as JSON: ".toList

/-- Result of one extraction call: the parsed (and normalized) value, or the
typed failure thrown at the end of the pipeline. -/
inductive ExtractResult where
  | ok (value : Json) : ExtractResult
  | jsonExtractionFailed (message : List Char) : ExtractResult

/-- `cleanAndParseJSON` with the logger state made explicit: the entries the
call appends to the module-level logger.  The stages run in the source's
order: boundary trim, fast-path parse, trailing-comma repair, control-char
repair, second parse, quote repair, final parse, typed failure. -/
def cleanAndParseJSONLogged (rawText : List Char) (log : List LogEntry) :
    ExtractResult × List LogEntry :=
  let cleaned1 := boundaryTrim rawText
  match jsonParse cleaned1 with
  | .ok parsed => (.ok (normalizeCodeBlocksInObject parsed), log)
  | .fail _ =>
    let log1 := log ++ [initialFailLog]
    let cleaned2 := fixControlCharactersInStrings (fixTrailingCommas cleaned1)
    match jsonParse cleaned2 with
    | .ok parsed => (.ok (normalizeCodeBlocksInObject parsed), log1)
    | .fail _ =>
      let log2 := log1 ++ [secondFailLog]
      let cleaned3 := fixUnescapedQuotesInValues cleaned2
      match jsonParse cleaned3 with
      | .ok parsed => (.ok (normalizeCodeBlocksInObject parsed), log2)
      | .fail m =>
        (.jsonExtractionFailed (failedToParseHeader ++ m), log2 ++ [finalFailLog cleaned3])

/-- The extraction result of `cleanAndParseJSON`. -/
def cleanAndParseJSON (rawText : List Char) : ExtractResult :=
  (cleanAndParseJSONLogged rawText []).1

/-- The log entries one call of `cleanAndParseJSON` emits. -/
def emittedLog (rawText : List Char) : List LogEntry :=
  (cleanAndParseJSONLogged rawText []).2

/-- The text as it stands after all three repair passes. -/
def afterAllRepairs (rawText : List Char) : List Char :=
  fixUnescapedQuotesInValues
    (fixControlCharactersInStrings (fixTrailingCommas (boundaryTrim rawText)))

/-! ### Observations used by the claims -/

/-- Whether the text contains a run of three or more consecutive newlines. -/
def hasTripleNewline : List Char → Bool
  | c1 :: rest@(c2 :: c3 :: _) =>
    (c1 = '\n' && c2 = '\n' && c3 = '\n') || hasTripleNewline rest
  | _ => false

/-- Length of the maximal run of newlines at the head of the text. -/
def leadNl : List Char → Nat
  | '\n' :: rest => leadNl rest + 1
  | _ => 0

/-- Whether the text starts and ends with non-whitespace (in the sense of
JavaScript `trim`). -/
def isJsTrimmed (l : List Char) : Bool :=
  (match l.head? with
   | some c => !isJsWsRegex c
   | none => true) &&
  (match l.getLast? with
   | some c => !isJsWsRegex c
   | none => true)

/-- Whether `needle` occurs as a contiguous substring of the text. -/
def occursIn (needle : List Char) : List Char → Bool
  | [] => needle.isEmpty
  | c :: rest => needle.isPrefixOf (c :: rest) || occursIn needle rest

/-- The control-character pass as the specification words it: a left-to-right
scan tracking string/escape state; inside a string a literal newline becomes
`\n`, a carriage return `\r`, a tab `\t`, any other code point below 0x20 is
dropped; outside a string characters pass through unchanged. -/
def specControlFix (st : ScanState) : List Char → List Char
  | [] => []
  | c :: rest =>
    if st.escaped then c :: specControlFix ⟨st.inString, false⟩ rest
    else if c = '\\' then c :: specControlFix ⟨st.inString, true⟩ rest
    else if c = '"' then c :: specControlFix ⟨!st.inString, false⟩ rest
    else if st.inString then
      (if c = '\n' then ['\\', 'n']
       else if c = '\r' then ['\\', 'r']
       else if c = '\t' then ['\\', 't']
       else if c.toNat < 32 then []
       else [c]) ++ specControlFix st rest
    else c :: specControlFix st rest

/-- A failing input with neither brackets nor braces, longer than any
snippet a parse-error diagnostic embeds. -/
def c3Input : List Char :=
  "utterly hopeless garbage with no json structure anywhere".toList

/-- Whether the text starts with two newlines. -/
def startsWithTwoNl : List Char → Bool
  | c1 :: c2 :: _ => c1 = '\n' && c2 = '\n'
  | _ => false

/-! ### Helper lemmas: character indices -/

theorem firstIdx_lt_length {c : Char} :
    ∀ {s : List Char} {i : Nat}, firstIdx c s = some i → i < s.length := by
  intro s
  induction s with
  | nil => intro i h; simp [firstIdx] at h
  | cons d rest ih =>
    intro i h
    by_cases hd : d = c
    · simp [firstIdx, hd] at h
      simp [List.length_cons]
      omega
    · simp [firstIdx, hd] at h
      obtain ⟨j, hj, rfl⟩ := h
      have := ih hj
      simp
      omega

theorem firstIdx_head {c : Char} {s : List Char} (h : s.head? = some c) :
    firstIdx c s = some 0 := by
  cases s with
  | nil => simp at h
  | cons d rest =>
    simp at h
    simp [firstIdx, h]

theorem lastIdx_getLast {c : Char} {s : List Char} (h : s.getLast? = some c) :
    lastIdx c s = some (s.length - 1) := by
  have hrev : s.reverse.head? = some c := by
    rw [List.head?_reverse]; exact h
  simp [lastIdx, firstIdx_head hrev]

theorem lastIdx_lt_length {c : Char} {s : List Char} {i : Nat}
    (h : lastIdx c s = some i) : i < s.length := by
  simp [lastIdx] at h
  obtain ⟨j, hj, rfl⟩ := h
  have := firstIdx_lt_length hj
  simp at this
  omega

/-! ### Helper lemmas: boundary extraction -/

theorem startBoundaryInt_eq_spec (s : List Char) :
    startBoundaryInt s =
      (match specStartBoundary s with
       | some a => (a : Int)
       | none => -1) := by
  unfold startBoundaryInt specStartBoundary jsIndexOf
  rcases h1 : firstIdx '[' s with _ | i <;> rcases h2 : firstIdx '\x7b' s with _ | j <;>
    simp <;> omega

theorem endBoundaryInt_eq_spec (s : List Char) :
    endBoundaryInt s =
      (match specEndBoundary s with
       | some b => (b : Int)
       | none => -1) := by
  unfold endBoundaryInt specEndBoundary jsLastIndexOf
  rcases h1 : lastIdx ']' s with _ | i <;> rcases h2 : lastIdx '\x7d' s with _ | j <;>
    simp <;> omega

theorem boundaryTrim_eq_spec (s : List Char) : boundaryTrim s = boundarySpecTrim s := by
  unfold boundaryTrim boundarySpecTrim
  rw [startBoundaryInt_eq_spec, endBoundaryInt_eq_spec]
  rcases hS : specStartBoundary s with _ | a <;> rcases hE : specEndBoundary s with _ | b
  · simp
  · simp
  · simp
  · simp only []
    by_cases hab : a < b
    · have ha : ((a : Int)).toNat = a := by omega
      have hb : ((b : Int) + 1).toNat = b + 1 := by omega
      rw [if_pos ⟨by omega, by omega, by exact_mod_cast hab⟩, if_pos hab]
      unfold jsSubstring
      rw [ha, hb]
    · rw [if_neg (by push_neg; intro _ _; omega), if_neg hab]

theorem two_le_length_of_bracketed {s : List Char}
    (hhead : s.head? = some '[' ∨ s.head? = some '\x7b')
    (hlast : s.getLast? = some ']' ∨ s.getLast? = some '\x7d') :
    2 ≤ s.length := by
  rcases s with _ | ⟨c, t⟩
  · rcases hhead with h | h <;> simp at h
  · rcases t with _ | ⟨d, u⟩
    · rcases hhead with h | h <;> rcases hlast with h' | h' <;>
        simp at h h' <;> subst h <;> simp at h'
    · simp

theorem startBoundaryInt_of_head (s : List Char)
    (h : s.head? = some '[' ∨ s.head? = some '\x7b') :
    startBoundaryInt s = 0 := by
  unfold startBoundaryInt jsIndexOf
  rcases h with h | h
  · rw [firstIdx_head h]
    rcases h2 : firstIdx '\x7b' s with _ | j
    · simp
    · simp <;> omega
  · rw [firstIdx_head h]
    rcases h2 : firstIdx '[' s with _ | j
    · simp
    · simp <;> omega

theorem endBoundaryInt_of_getLast (s : List Char)
    (h : s.getLast? = some ']' ∨ s.getLast? = some '\x7d') :
    endBoundaryInt s = ((s.length - 1 : Nat) : Int) := by
  unfold endBoundaryInt jsLastIndexOf
  rcases h with h | h
  · rw [lastIdx_getLast h]
    rcases h2 : lastIdx '\x7d' s with _ | j
    · simp <;> omega
    · have := lastIdx_lt_length h2
      simp <;> omega
  · rw [lastIdx_getLast h]
    rcases h2 : lastIdx ']' s with _ | j
    · simp <;> omega
    · have := lastIdx_lt_length h2
      simp <;> omega

theorem boundaryTrim_bracketed {s : List Char}
    (hhead : s.head? = some '[' ∨ s.head? = some '\x7b')
    (hlast : s.getLast? = some ']' ∨ s.getLast? = some '\x7d') :
    boundaryTrim s = s := by
  have hlen2 := two_le_length_of_bracketed hhead hlast
  have hstart := startBoundaryInt_of_head s hhead
  have hend := endBoundaryInt_of_getLast s hlast
  unfold boundaryTrim
  rw [hstart, hend]
  have hc : (0 : Int) ≠ -1 ∧ ((s.length - 1 : Nat) : Int) ≠ -1 ∧
      ((s.length - 1 : Nat) : Int) > 0 := ⟨by omega, by omega, by omega⟩
  rw [if_pos hc]
  unfold jsSubstring
  have h1 : (((s.length - 1 : Nat) : Int) + 1).toNat = s.length := by omega
  have h2 : ((0 : Int)).toNat = 0 := by omega
  rw [h1, h2, List.take_length, List.drop_zero]

/-! ### The claims -/

/-- Claim C1: boundary extraction truncates the input to the inclusive
substring from the minimum index of the first `[` and first `{` (using
whichever is present when only one is; a no-op when neither is) to the
maximum index of the last `]` and last `}`, provided the end is after the
start; and on the prose-wrapped example the extractor returns exactly what
parsing the embedded JSON text directly returns. -/
theorem claim_C1 :
    (∀ s, boundaryTrim s = boundarySpecTrim s) ∧
    cleanAndParseJSON
        ("Here is the JSON:\n[\x7b\"question\":\"Q?\",\"answer\":\"A.\"\x7d]\nDone!".toList) =
      .ok (.arr [.obj [("question".toList, .str ("Q?".toList)),
                       ("answer".toList, .str ("A.".toList))]]) ∧
    jsonParse ("[\x7b\"question\":\"Q?\",\"answer\":\"A.\"\x7d]".toList) =
      .ok (.arr [.obj [("question".toList, .str ("Q?".toList)),
                       ("answer".toList, .str ("A.".toList))]]) :=
  ⟨boundaryTrim_eq_spec, by rfl, by rfl⟩

/-- Claim C2: the bracketless input and the unbalanced input both terminate
in the typed `JsonExtractionFailed` failure; and in general every run either
succeeds or exits through that single final failure, whose message wraps the
final parse attempt's diagnostic (each repair pass is a total text-to-text
function by construction). -/
theorem claim_C2 :
    cleanAndParseJSON ("This is not JSON at all".toList) =
      .jsonExtractionFailed (failedToParseHeader ++ unexpectedTokenMsg) ∧
    cleanAndParseJSON ("[\x7bbroken json structure".toList) =
      .jsonExtractionFailed (failedToParseHeader ++ unexpectedTokenMsg) ∧
    (∀ s, (∃ v, cleanAndParseJSON s = .ok v) ∨
      (∃ m, jsonParse (afterAllRepairs s) = .fail m ∧
        cleanAndParseJSON s = .jsonExtractionFailed (failedToParseHeader ++ m))) := by
  refine ⟨by rfl, by rfl, ?_⟩
  intro s
  simp only [cleanAndParseJSON, cleanAndParseJSONLogged, afterAllRepairs]
  rcases h1 : jsonParse (boundaryTrim s) with v | m1
  · exact Or.inl ⟨_, rfl⟩
  · rcases h2 : jsonParse (fixControlCharactersInStrings (fixTrailingCommas (boundaryTrim s))) with v | m2
    · exact Or.inl ⟨_, rfl⟩
    · rcases h3 : jsonParse (fixUnescapedQuotesInValues
          (fixControlCharactersInStrings (fixTrailingCommas (boundaryTrim s)))) with v | m3
      · exact Or.inl ⟨_, rfl⟩
      · exact Or.inr ⟨m3, rfl, rfl⟩

/-- Claim C3 (corrected): when all parse attempts fail, the typed failure
value carries the final parse attempt's diagnostic, while the 500-character
preview of the post-repair text goes to the error log entry — the failure
value itself does not carry the preview. -/
theorem claim_C3 (s e : List Char)
    (h : cleanAndParseJSON s = .jsonExtractionFailed e) :
    (∃ m, jsonParse (afterAllRepairs s) = .fail m ∧ e = failedToParseHeader ++ m) ∧
    emittedLog s = [initialFailLog, secondFailLog, finalFailLog (afterAllRepairs s)] ∧
    (finalFailLog (afterAllRepairs s)).message =
      previewHeader ++ (afterAllRepairs s).take 500 ++ "...".toList := by
  simp only [cleanAndParseJSON, cleanAndParseJSONLogged] at h
  rcases h1 : jsonParse (boundaryTrim s) with v | m1
  · simp [h1] at h
  · rcases h2 : jsonParse (fixControlCharactersInStrings (fixTrailingCommas (boundaryTrim s)))
        with v | m2
    · simp [h1, h2] at h
    · rcases h3 : jsonParse (fixUnescapedQuotesInValues
          (fixControlCharactersInStrings (fixTrailingCommas (boundaryTrim s)))) with v | m3
      · simp [h1, h2, h3] at h
      · simp [h1, h2, h3] at h
        refine ⟨⟨m3, ?_, ?_⟩, ?_, rfl⟩
        · simp [afterAllRepairs, h3]
        · exact h.symm
        · simp [emittedLog, cleanAndParseJSONLogged, h1, h2, h3, afterAllRepairs]

/-- Claim C3, counterexample: on a concrete unparseable input the returned
failure value does not contain the preview text at all — the preview is only
logged. -/
theorem claim_C3_counterexample :
    cleanAndParseJSON c3Input =
      .jsonExtractionFailed (failedToParseHeader ++ unexpectedTokenMsg) ∧
    occursIn ((afterAllRepairs c3Input).take 500)
        (failedToParseHeader ++ unexpectedTokenMsg) = false ∧
    emittedLog c3Input = [initialFailLog, secondFailLog, finalFailLog (afterAllRepairs c3Input)] := by
  exact ⟨by rfl, by rfl, by rfl⟩

theorem claim_C3_witness :
    (∃ m, jsonParse (afterAllRepairs c3Input) = .fail m ∧
        failedToParseHeader ++ unexpectedTokenMsg = failedToParseHeader ++ m) ∧
    emittedLog c3Input = [initialFailLog, secondFailLog, finalFailLog (afterAllRepairs c3Input)] ∧
    (finalFailLog (afterAllRepairs c3Input)).message =
      previewHeader ++ (afterAllRepairs c3Input).take 500 ++ "...".toList :=
  claim_C3 c3Input (failedToParseHeader ++ unexpectedTokenMsg) (by rfl)

/-- Claim C4 (corrected): for a text that is already valid JSON *and* starts
with `[` or `{` and ends with `]` or `}` (the serialized array or object with
no surrounding prose), extraction succeeds with exactly the standard parse
result, normalized. -/
theorem claim_C4 (s : List Char) (v : Json)
    (hp : jsonParse s = .ok v)
    (hhead : s.head? = some '[' ∨ s.head? = some '\x7b')
    (hlast : s.getLast? = some ']' ∨ s.getLast? = some '\x7d') :
    cleanAndParseJSON s = .ok (normalizeCodeBlocksInObject v) := by
  have ht := boundaryTrim_bracketed hhead hlast
  simp [cleanAndParseJSON, cleanAndParseJSONLogged, ht, hp]

/-- Claim C4, counterexample: the five-character text `"[1]"` is already
valid JSON (the JSON string `[1]`), yet the extractor boundary-trims away the
quotes and returns the array `[1]` instead of that string value. -/
theorem claim_C4_counterexample :
    jsonParse ("\"[1]\"".toList) = .ok (.str ("[1]".toList)) ∧
    cleanAndParseJSON ("\"[1]\"".toList) = .ok (.arr [.num ['1']]) ∧
    Json.arr [.num ['1']] ≠ normalizeCodeBlocksInObject (.str ("[1]".toList)) := by
  refine ⟨by rfl, by rfl, ?_⟩
  have h : normalizeCodeBlocksInObject (.str ("[1]".toList)) = .str ("[1]".toList) := by rfl
  rw [h]
  intro hc
  exact Json.noConfusion hc

theorem claim_C4_witness :
    cleanAndParseJSON ("[1]".toList) =
      .ok (normalizeCodeBlocksInObject (.arr [.num ['1']])) :=
  claim_C4 ("[1]".toList) (.arr [.num ['1']]) (by rfl) (.inl (by rfl)) (.inl (by rfl))

/-- Claim C10 (implicit): the end boundary is the globally last `]`/`}`, so a
closer inside trailing commentary keeps the commentary in the working text
and the call fails even though a valid JSON prefix is present; commentary
with no closer after the value is stripped and the call succeeds. -/
theorem claim_C10 :
    cleanAndParseJSON ("\x7b\"a\":1\x7d see [docs]".toList) =
      .jsonExtractionFailed (failedToParseHeader ++ trailingContentMsg) ∧
    jsonParse ("\x7b\"a\":1\x7d".toList) = .ok (.obj [("a".toList, .num ['1'])]) ∧
    boundaryTrim ("\x7b\"a\":1\x7d see [docs]".toList) =
      ("\x7b\"a\":1\x7d see [docs]".toList) ∧
    cleanAndParseJSON ("\x7b\"a\":1\x7d Done!".toList) =
      .ok (.obj [("a".toList, .num ['1'])]) :=
  ⟨by rfl, by rfl, by rfl, by rfl⟩

/-- Claim C6 (corrected): the trailing-comma pass removes each comma followed
(through whitespace) by a closing `]`/`}` and the two concrete repair
examples parse as stated — but the global substitution is *not*
meaning-preserving on all valid JSON: it also fires inside string literals. -/
theorem claim_C6 :
    cleanAndParseJSON ("[\x7b\"question\":\"Q?\",\"answer\":\"A.\"\x7d,]".toList) =
      .ok (.arr [.obj [("question".toList, .str ("Q?".toList)),
                       ("answer".toList, .str ("A.".toList))]]) ∧
    cleanAndParseJSON ("\x7b\"title\":\"T\",\"explanation\":\"E\",\x7d".toList) =
      .ok (.obj [("title".toList, .str ['T']),
                 ("explanation".toList, .str ['E'])]) ∧
    fixTrailingCommas ("[\",]\"]".toList) = ("[\"]\"]".toList) ∧
    jsonParse ("[\",]\"]".toList) = .ok (.arr [.str (",]".toList)]) ∧
    jsonParse ("[\"]\"]".toList) = .ok (.arr [.str ("]".toList)]) :=
  ⟨by rfl, by rfl, by rfl, by rfl, by rfl⟩

/-- Claim C6, counterexample: the text `[",]"]` is valid JSON (an array with
the single string `,]`), yet the trailing-comma substitution removes the
comma inside the string literal and changes what the text parses to. -/
theorem claim_C6_counterexample :
    jsonParse ("[\",]\"]".toList) = .ok (.arr [.str (",]".toList)]) ∧
    jsonParse (fixTrailingCommas ("[\",]\"]".toList)) = .ok (.arr [.str ("]".toList)]) ∧
    Json.arr [.str (",]".toList)] ≠ Json.arr [.str ("]".toList)] := by
  refine ⟨by rfl, by rfl, ?_⟩
  intro h
  injection h with h1
  injection h1 with h2 h3
  injection h2 with h4
  exact absurd h4 (by decide)

theorem char_eq_of_toNat {c d : Char} (h : c.toNat = d.toNat) : c = d := by
  unfold Char.toNat at h
  exact Char.ext (UInt32.ext h)

theorem ccGo_eq_specControlFix : ∀ (s : List Char) (st : ScanState),
    ccGo st s = specControlFix st s := by
  intro s
  induction s with
  | nil => intro st; rfl
  | cons c rest ih =>
    intro st
    rcases st with ⟨ins, esc⟩
    cases esc with
    | true => simp [ccGo, ccStep, specControlFix, ih]
    | false =>
      by_cases hbs : c = '\\'
      · simp [ccGo, ccStep, specControlFix, hbs, ih]
      · by_cases hq : c = '"'
        · simp [ccGo, ccStep, specControlFix, hbs, hq, ih]
        · cases ins with
          | false => simp [ccGo, ccStep, specControlFix, hbs, hq, ih]
          | true =>
            have e10 : ('\n').toNat = 10 := by decide
            have e13 : ('\r').toNat = 13 := by decide
            have e9 : ('\t').toNat = 9 := by decide
            by_cases hn : c = '\n'
            · simp [ccGo, ccStep, specControlFix, hbs, hq, hn, ih]
            · have h10 : ¬ c.toNat = 10 := fun hh => hn (char_eq_of_toNat (hh.trans e10.symm))
              by_cases hr : c = '\r'
              · simp [ccGo, ccStep, specControlFix, hbs, hq, hn, hr, h10, ih]
              · have h13 : ¬ c.toNat = 13 := fun hh => hr (char_eq_of_toNat (hh.trans e13.symm))
                by_cases htb : c = '\t'
                · simp [ccGo, ccStep, specControlFix, hbs, hq, hn, hr, htb, h10, h13, ih]
                · have h9 : ¬ c.toNat = 9 := fun hh => htb (char_eq_of_toNat (hh.trans e9.symm))
                  by_cases hlt : c.toNat < 32
                  · simp [ccGo, ccStep, specControlFix, hbs, hq, hn, hr, htb, h10, h13, h9,
                      hlt, ih]
                  · simp [ccGo, ccStep, specControlFix, hbs, hq, hn, hr, htb, h10, h13, h9,
                      hlt, ih]

/-- Claim C7: the control-character pass is exactly the claimed string/escape
state machine (literal newline to `\n`, carriage return to `\r`, tab to `\t`,
other raw code points below 0x20 dropped inside strings; everything outside
strings unchanged); and the input whose string value holds a literal newline
parses to a value containing an actual newline character, not the two-
character escape sequence. -/
theorem claim_C7 :
    (∀ st s, ccGo st s = specControlFix st s) ∧
    (∀ s, fixControlCharactersInStrings s = specControlFix ⟨false, false⟩ s) ∧
    cleanAndParseJSON ("\x7b\"a\":\"Line 1\nLine 2\"\x7d".toList) =
      .ok (.obj [("a".toList, .str ("Line 1\nLine 2".toList))]) ∧
    ("Line 1\nLine 2".toList : List Char) ≠ "Line 1\\nLine 2".toList :=
  ⟨fun st s => ccGo_eq_specControlFix s st,
   fun s => ccGo_eq_specControlFix s ⟨false, false⟩,
   by rfl, by decide⟩

/-- Claim C8: a quote met inside a string is kept as terminator exactly when
the next non-whitespace character is `,`, `}`, `]`, `:` or end-of-input, and
is rewritten to `\"` (staying in string state) otherwise; an escaped
character always passes through untouched, so escaped quotes are never
double-escaped; both concrete examples parse as stated, and the quote pass
leaves the already-escaped text unchanged. -/
theorem claim_C8 :
    (∀ rest, fqGo true false ('"' :: rest) =
      (if getNextNonSpaceChar rest = some ',' ∨ getNextNonSpaceChar rest = some '\x7d' ∨
          getNextNonSpaceChar rest = some ']' ∨ getNextNonSpaceChar rest = none ∨
          getNextNonSpaceChar rest = some ':' then
        '"' :: fqGo false false rest
      else '\\' :: '"' :: fqGo true false rest)) ∧
    (∀ ins c rest, fqGo ins true (c :: rest) = c :: fqGo ins false rest) ∧
    cleanAndParseJSON ("\x7b\"answer\": \"Use \"strict mode\" in JavaScript\"\x7d".toList) =
      .ok (.obj [("answer".toList,
        .str ("Use \"strict mode\" in JavaScript".toList))]) ∧
    cleanAndParseJSON ("\x7b\"answer\": \"Say \\\"Hello\\\"\"\x7d".toList) =
      .ok (.obj [("answer".toList, .str ("Say \"Hello\"".toList))]) ∧
    fixUnescapedQuotesInValues ("\x7b\"answer\": \"Say \\\"Hello\\\"\"\x7d".toList) =
      ("\x7b\"answer\": \"Say \\\"Hello\\\"\"\x7d".toList) := by
  refine ⟨?_, ?_, by rfl, by rfl, by rfl⟩
  · intro rest
    by_cases h : getNextNonSpaceChar rest = some ',' ∨ getNextNonSpaceChar rest = some '\x7d' ∨
        getNextNonSpaceChar rest = some ']' ∨ getNextNonSpaceChar rest = none ∨
        getNextNonSpaceChar rest = some ':'
    · rw [if_pos h]
      rcases h with h | h | h | h | h <;> simp [fqGo, h]
    · rw [if_neg h]
      push_neg at h
      obtain ⟨h1, h2, h3, h4, h5⟩ := h
      simp [fqGo, h1, h2, h3, h4, h5]
  · intro ins c rest
    simp [fqGo]

/-- Claim C9: with the module-level logger made explicit, the extraction
result is a pure function of the input text alone (any prior logger state is
irrelevant), one call only appends its own entries, and running two calls in
either order produces the same two results with the logs concatenating. -/
theorem claim_C9 :
    (∀ s log, (cleanAndParseJSONLogged s log).1 = cleanAndParseJSON s ∧
      (cleanAndParseJSONLogged s log).2 = log ++ emittedLog s) ∧
    (∀ s1 s2 log,
      (cleanAndParseJSONLogged s2 (cleanAndParseJSONLogged s1 log).2).1 =
        cleanAndParseJSON s2 ∧
      (cleanAndParseJSONLogged s1 (cleanAndParseJSONLogged s2 log).2).1 =
        cleanAndParseJSON s1 ∧
      (cleanAndParseJSONLogged s2 (cleanAndParseJSONLogged s1 log).2).2 =
        log ++ emittedLog s1 ++ emittedLog s2) := by
  have main : ∀ s log, (cleanAndParseJSONLogged s log).1 = cleanAndParseJSON s ∧
      (cleanAndParseJSONLogged s log).2 = log ++ emittedLog s := by
    intro s log
    simp only [cleanAndParseJSON, cleanAndParseJSONLogged, emittedLog]
    rcases h1 : jsonParse (boundaryTrim s) with v | m1
    · simp [h1]
    · rcases h2 : jsonParse (fixControlCharactersInStrings (fixTrailingCommas (boundaryTrim s)))
          with v | m2
      · simp [h1, h2]
      · rcases h3 : jsonParse (fixUnescapedQuotesInValues
            (fixControlCharactersInStrings (fixTrailingCommas (boundaryTrim s)))) with v | m3
        · simp [h1, h2, h3]
        · simp [h1, h2, h3]
  refine ⟨main, fun s1 s2 log => ⟨(main s2 _).1, (main s1 _).1, ?_⟩⟩
  rw [(main s2 _).2, (main s1 _).2, List.append_assoc]

theorem leadNl_cons (c : Char) (l : List Char) :
    leadNl (c :: l) = if c = '\n' then leadNl l + 1 else 0 := by
  by_cases h : c = '\n'
  · subst h
    simp [leadNl]
  · rw [if_neg h, leadNl.eq_def]
    split
    · rename_i rest heq
      injection heq with hc _
      exact absurd hc h
    · rfl

theorem startsWithTwoNl_two_le {l : List Char} (h : startsWithTwoNl l = true) :
    2 ≤ leadNl l := by
  rcases l with _ | ⟨a, _ | ⟨b, t⟩⟩
  · simp [startsWithTwoNl] at h
  · simp [startsWithTwoNl] at h
  · simp [startsWithTwoNl] at h
    obtain ⟨ha, hb⟩ := h
    subst ha
    subst hb
    simp [leadNl]

theorem startsWithTwoNl_of_le_one {l : List Char} (h : leadNl l ≤ 1) :
    startsWithTwoNl l = false := by
  cases hb : startsWithTwoNl l
  · rfl
  · have := startsWithTwoNl_two_le hb
    omega

theorem hasTriple_cons_eq (c : Char) (l : List Char) :
    hasTripleNewline (c :: l) = ((c = '\n' && startsWithTwoNl l) || hasTripleNewline l) := by
  rcases l with _ | ⟨a, _ | ⟨b, t⟩⟩
  · simp [hasTripleNewline, startsWithTwoNl]
  · simp [hasTripleNewline, startsWithTwoNl]
  · simp [hasTripleNewline, startsWithTwoNl, Bool.and_assoc]

theorem collapseGo_cons_step {f : Nat} {c : Char} {rest : List Char}
    (h : ¬(∃ c2 c3 t, rest = c2 :: c3 :: t ∧ c = '\n' ∧ c2 = '\n' ∧ c3 = '\n')) :
    collapseNewlinesGo (f + 1) (c :: rest) = c :: collapseNewlinesGo f rest := by
  rw [collapseNewlinesGo.eq_def]
  split
  · omega
  · exact (List.cons_ne_nil _ _ ‹c :: rest = []›).elim
  · rename_i heq1 heq2
    injection heq2 with e1 r1
    exact absurd ⟨_, _, _, r1, e1, rfl, rfl⟩ h
  · rename_i f' c' rest' heq1 heq2
    injection heq1 with ef
    injection heq2 with ec er
    subst ef
    subst ec
    subst er
    rfl

theorem collapseGo_cons_of_not_triple {f : Nat} {c1 c2 c3 : Char} {s3 : List Char}
    (h : ¬(c1 = '\n' ∧ c2 = '\n' ∧ c3 = '\n')) :
    collapseNewlinesGo (f + 1) (c1 :: c2 :: c3 :: s3) =
      c1 :: collapseNewlinesGo f (c2 :: c3 :: s3) := by
  apply collapseGo_cons_step
  rintro ⟨a, b, t, heq, hc, ha, hb⟩
  injection heq with e1 r1
  injection r1 with e2 _
  exact h ⟨hc, e1.symm ▸ ha, e2.symm ▸ hb⟩

theorem collapseGo_spec : ∀ fuel s, s.length < fuel →
    leadNl (collapseNewlinesGo fuel s) ≤ leadNl s ∧
    hasTripleNewline (collapseNewlinesGo fuel s) = false := by
  intro fuel
  induction fuel with
  | zero => intro s h; omega
  | succ f ih =>
    intro s hlen
    rcases s with _ | ⟨c1, s1⟩
    · simp [collapseNewlinesGo, leadNl, hasTripleNewline]
    · rcases s1 with _ | ⟨c2, s2⟩
      · have hgo1 : collapseNewlinesGo (f + 1) [c1] = c1 :: collapseNewlinesGo f [] := by
          apply collapseGo_cons_step
          rintro ⟨a, b, t, heq, _⟩
          exact List.noConfusion heq
        have hgo2 : collapseNewlinesGo f ([] : List Char) = [] := by cases f <;> rfl
        have hgo : collapseNewlinesGo (f + 1) [c1] = [c1] := by rw [hgo1, hgo2]
        rw [hgo]
        exact ⟨le_refl _, by simp [hasTripleNewline]⟩
      · rcases s2 with _ | ⟨c3, s3⟩
        · have hgo : collapseNewlinesGo (f + 1) [c1, c2] =
              c1 :: collapseNewlinesGo f [c2] := by
            apply collapseGo_cons_step
            rintro ⟨a, b, t, heq, _⟩
            injection heq with _ r1
            exact List.noConfusion r1
          rw [hgo]
          obtain ⟨ihl, iht⟩ := ih [c2] (by simp at hlen ⊢; omega)
          have hle1 : leadNl [c2] ≤ 1 := by
            rw [leadNl_cons]
            split
            · simp [leadNl]
            · omega
          constructor
          · rw [leadNl_cons, leadNl_cons]
            split
            · omega
            · omega
          · rw [hasTriple_cons_eq]
            have hsw : startsWithTwoNl (collapseNewlinesGo f [c2]) = false :=
              startsWithTwoNl_of_le_one (le_trans ihl hle1)
            simp [hsw, iht]
        · by_cases h3 : c1 = '\n' ∧ c2 = '\n' ∧ c3 = '\n'
          · obtain ⟨rfl, rfl, rfl⟩ := h3
            have hgo : collapseNewlinesGo (f + 1) ('\n' :: '\n' :: '\n' :: s3) =
                collapseNewlinesGo f ('\n' :: '\n' :: s3) := rfl
            rw [hgo]
            obtain ⟨ihl, iht⟩ := ih ('\n' :: '\n' :: s3) (by simp at hlen ⊢; omega)
            refine ⟨?_, iht⟩
            have hstep : leadNl ('\n' :: '\n' :: s3) ≤ leadNl ('\n' :: '\n' :: '\n' :: s3) := by
              simp [leadNl]
            omega
          · rw [collapseGo_cons_of_not_triple h3]
            obtain ⟨ihl, iht⟩ := ih (c2 :: c3 :: s3) (by simp at hlen ⊢; omega)
            constructor
            · rw [leadNl_cons, leadNl_cons]
              split
              · omega
              · omega
            · rw [hasTriple_cons_eq]
              by_cases hc1 : c1 = '\n'
              · have hle : leadNl (c2 :: c3 :: s3) ≤ 1 := by
                  rw [leadNl_cons]
                  split
                  · rename_i hc2
                    have hc3 : c3 ≠ '\n' := fun hh => h3 ⟨hc1, hc2, hh⟩
                    rw [leadNl_cons, if_neg hc3]
                  · omega
                have hsw : startsWithTwoNl (collapseNewlinesGo f (c2 :: c3 :: s3)) = false :=
                  startsWithTwoNl_of_le_one (le_trans ihl hle)
                simp [hsw, iht]
              · simp [hc1, iht]

theorem hasTriple_collapse (s : List Char) :
    hasTripleNewline (collapseNewlines s) = false :=
  (collapseGo_spec (s.length + 1) s (by omega)).2

theorem hasTriple_append_left (a b : List Char) (h : hasTripleNewline b = true) :
    hasTripleNewline (a ++ b) = true := by
  induction a with
  | nil => simpa
  | cons c t ih =>
    rw [List.cons_append, hasTriple_cons_eq]
    simp [ih]

theorem startsWithTwoNl_append (t b : List Char) (h : startsWithTwoNl t = true) :
    startsWithTwoNl (t ++ b) = true := by
  rcases t with _ | ⟨x, _ | ⟨y, r⟩⟩
  · simp [startsWithTwoNl] at h
  · simp [startsWithTwoNl] at h
  · simpa [startsWithTwoNl] using h

theorem hasTriple_append_right (a b : List Char) (h : hasTripleNewline a = true) :
    hasTripleNewline (a ++ b) = true := by
  induction a with
  | nil => simp [hasTripleNewline] at h
  | cons c t ih =>
    rw [List.cons_append, hasTriple_cons_eq]
    rw [hasTriple_cons_eq] at h
    simp only [Bool.or_eq_true, Bool.and_eq_true] at h
    rcases h with ⟨hc, hst⟩ | hr
    · simp [hc, startsWithTwoNl_append t b hst]
    · simp [ih hr]

theorem jsTrim_decomp (s : List Char) :
    s = s.takeWhile isJsWsRegex ++
        (jsTrim s ++ ((s.dropWhile isJsWsRegex).reverse.takeWhile isJsWsRegex).reverse) := by
  conv_lhs => rw [← List.takeWhile_append_dropWhile (p := isJsWsRegex) (l := s)]
  congr 1
  conv_lhs => rw [← List.reverse_reverse (s.dropWhile isJsWsRegex),
    ← List.takeWhile_append_dropWhile (p := isJsWsRegex)
      (l := (s.dropWhile isJsWsRegex).reverse)]
  rw [List.reverse_append]
  rfl

theorem hasTriple_jsTrim {s : List Char} (h : hasTripleNewline s = false) :
    hasTripleNewline (jsTrim s) = false := by
  cases hb : hasTripleNewline (jsTrim s)
  · rfl
  · exfalso
    have h2 := hasTriple_append_right (jsTrim s)
      ((s.dropWhile isJsWsRegex).reverse.takeWhile isJsWsRegex).reverse hb
    have h3 := hasTriple_append_left (s.takeWhile isJsWsRegex) _ h2
    rw [← jsTrim_decomp s] at h3
    rw [h3] at h
    exact Bool.noConfusion h

theorem head_dropWhile_not (p : Char → Bool) :
    ∀ {l : List Char} {c : Char}, (l.dropWhile p).head? = some c → p c = false := by
  intro l
  induction l with
  | nil => intro c h; simp [List.dropWhile] at h
  | cons a t ih =>
    intro c h
    by_cases ha : p a
    · rw [List.dropWhile_cons, if_pos ha] at h
      exact ih h
    · rw [List.dropWhile_cons, if_neg ha] at h
      simp at h
      subst h
      simpa using ha

theorem getLast?_dropWhile (p : Char → Bool) :
    ∀ (l : List Char), l.dropWhile p ≠ [] → (l.dropWhile p).getLast? = l.getLast? := by
  intro l
  induction l with
  | nil => intro h; simp at h
  | cons a t ih =>
    intro h
    by_cases ha : p a
    · rw [List.dropWhile_cons, if_pos ha] at h ⊢
      have ht : t ≠ [] := by
        intro hn
        subst hn
        simp [List.dropWhile] at h
      rw [ih h]
      rcases t with _ | ⟨x, r⟩
      · exact absurd rfl ht
      · rw [List.getLast?_cons_cons]
    · rw [List.dropWhile_cons, if_neg ha]

theorem getLast?_reverse' (l : List Char) : l.reverse.getLast? = l.head? := by
  have h := List.head?_reverse l.reverse
  rw [List.reverse_reverse] at h
  exact h.symm

theorem jsTrim_head {s : List Char} {c : Char} (h : (jsTrim s).head? = some c) :
    isJsWsRegex c = false := by
  unfold jsTrim at h
  rw [List.head?_reverse] at h
  have hne : (s.dropWhile isJsWsRegex).reverse.dropWhile isJsWsRegex ≠ [] := by
    intro hn
    rw [hn] at h
    simp at h
  rw [getLast?_dropWhile _ _ hne, getLast?_reverse'] at h
  exact head_dropWhile_not isJsWsRegex h

theorem jsTrim_getLast {s : List Char} {c : Char} (h : (jsTrim s).getLast? = some c) :
    isJsWsRegex c = false := by
  unfold jsTrim at h
  rw [getLast?_reverse'] at h
  exact head_dropWhile_not isJsWsRegex h

theorem isJsTrimmed_jsTrim (s : List Char) : isJsTrimmed (jsTrim s) = true := by
  unfold isJsTrimmed
  rcases hh : (jsTrim s).head? with _ | c <;> rcases hl : (jsTrim s).getLast? with _ | d
  · simp
  · simp [jsTrim_getLast hl]
  · simp [jsTrim_head hh]
  · simp [jsTrim_head hh, jsTrim_getLast hl]

theorem normalizeJsonList_eq_map (xs : List Json) :
    normalizeJsonList xs = xs.map normalizeCodeBlocksInObject := by
  induction xs with
  | nil => rfl
  | cons x t ih => simp [normalizeJsonList, ih]

theorem normalizeJsonFields_eq_map (fs : List (List Char × Json)) :
    normalizeJsonFields fs = fs.map (fun p => (p.1, normalizeCodeBlocksInObject p.2)) := by
  induction fs with
  | nil => rfl
  | cons p t ih =>
    cases p
    simp [normalizeJsonFields, ih]

/-- Claim C5 (corrected): normalization leaves no run of three or more
newlines, trims leading/trailing whitespace, recurses through sequences and
mappings, and leaves non-string scalars untouched; the specification's
concrete scenario is normalized with exactly one blank line on each side of
the fence.  (It is *not* idempotent, and a fence in the output need not be
surrounded by blank lines — see the counterexample.) -/
theorem claim_C5 :
    (∀ s, hasTripleNewline (normalizeCodeBlocks s) = false ∧
      isJsTrimmed (normalizeCodeBlocks s) = true) ∧
    normalizeCodeBlocks
        ("Some explanation. ```javascript\nconst x = 1;\n``` More text.".toList) =
      ("Some explanation. \n\n```javascript\nconst x = 1;\n```\n\n More text.".toList) ∧
    (∀ s, normalizeCodeBlocksInObject (.str s) = .str (normalizeCodeBlocks s)) ∧
    (∀ xs, normalizeCodeBlocksInObject (.arr xs) = .arr (xs.map normalizeCodeBlocksInObject)) ∧
    (∀ fs, normalizeCodeBlocksInObject (.obj fs) =
      .obj (fs.map (fun p => (p.1, normalizeCodeBlocksInObject p.2)))) ∧
    normalizeCodeBlocksInObject .null = .null ∧
    (∀ b, normalizeCodeBlocksInObject (.bool b) = .bool b) ∧
    (∀ n, normalizeCodeBlocksInObject (.num n) = .num n) := by
  refine ⟨?_, by rfl, fun s => rfl, ?_, ?_, rfl, fun b => rfl, fun n => rfl⟩
  · intro s
    unfold normalizeCodeBlocks
    exact ⟨hasTriple_jsTrim (hasTriple_collapse _), isJsTrimmed_jsTrim _⟩
  · intro xs
    simp [normalizeCodeBlocksInObject, normalizeJsonList_eq_map]
  · intro fs
    simp [normalizeCodeBlocksInObject, normalizeJsonFields_eq_map]

/-- Claim C5, counterexample: normalization is not idempotent, and in the
normalized output a fenced block can be followed by a single newline rather
than a blank line.  The rewrite of `"```js```\ncode```"` creates a new fence
match (`"```js\n\n```"`), so a second normalization changes the string
again. -/
theorem claim_C5_counterexample :
    normalizeCodeBlocks ("```js```\ncode```".toList) = ("```js\n\n```\ncode```".toList) ∧
    normalizeCodeBlocks (normalizeCodeBlocks ("```js```\ncode```".toList)) =
      ("```js\n\n```\n\ncode```".toList) ∧
    normalizeCodeBlocks (normalizeCodeBlocks ("```js```\ncode```".toList)) ≠
      normalizeCodeBlocks ("```js```\ncode```".toList) ∧
    tryFenceAt (normalizeCodeBlocks ("```js```\ncode```".toList)) =
      some ("```js\n\n```".toList, "\ncode```".toList) := by
  have h1 : normalizeCodeBlocks ("```js```\ncode```".toList) =
      ("```js\n\n```\ncode```".toList) := by rfl
  have h2 : normalizeCodeBlocks (normalizeCodeBlocks ("```js```\ncode```".toList)) =
      ("```js\n\n```\n\ncode```".toList) := by rfl
  refine ⟨h1, h2, ?_, by rfl⟩
  rw [h2, h1]
  decide
